import Mathlib

/-!
Verification of the `vpo-core` crate (directory-discovery walker and partial
hasher) against its natural-language specification.

The Rust sources (`src/crates/vpo-core/src/hasher.rs` and
`src/crates/vpo-core/src/discovery.rs`) are shallowly embedded below:

* file contents are `List Nat` (byte values), a file system is a partial map
  from path strings to contents;
* the external `xxh64` hash (crate `xxhash-rust`) is implemented in full over
  `Nat` with explicit reduction modulo `2 ^ 64`;
* the directory tree is a finite graph of canonical directory identifiers
  (canonicalisation of a symlink is modelled by the link carrying the
  canonical id of its target), entries carry names, sizes and mtimes;
* the parallel per-item maps of the Rust code (rayon `par_iter ... collect`,
  which is deterministic and order-preserving) are modelled as `List.map`;
* Python signal checks (`py.check_signals`) are an oracle `sig : Nat → Bool`
  consulted at the same program points as the code, progress callbacks are
  recorded as trace events, and the `f64` wall-clock rate arithmetic is
  modelled over `ℚ` (the guarded division does not depend on rounding).
-/

/-! ## Partial hasher: xxh64 (hasher.rs, external crate `xxhash-rust`) -/

/-- `2 ^ 64`, the modulus of all `u64` arithmetic in the hasher. -/
def M64 : Nat := 18446744073709551616

/-- Reduce modulo `2 ^ 64` (Rust `u64` wrapping arithmetic). -/
def m64 (x : Nat) : Nat := x % M64

def XXP1 : Nat := 11400714785074694791
def XXP2 : Nat := 14029467366897019727
def XXP3 : Nat := 1609587929392839161
def XXP4 : Nat := 9650029242287828579
def XXP5 : Nat := 2870177450012600261

/-- 64-bit rotate left (assumes `x < 2 ^ 64`). -/
def rotl64 (x n : Nat) : Nat := m64 ((x <<< n) ||| (x >>> (64 - n)))

/-- Little-endian word value of a byte list. -/
def leNat (bs : List Nat) : Nat := bs.foldr (fun b acc => b % 256 + 256 * acc) 0

/-- One xxh64 accumulator round. -/
def xxh64Round (acc lane : Nat) : Nat := m64 (rotl64 (m64 (acc + m64 (lane * XXP2))) 31 * XXP1)

/-- xxh64 merge round used when folding the four stripe accumulators. -/
def xxh64Merge (acc v : Nat) : Nat := m64 (m64 ((acc ^^^ xxh64Round 0 v) * XXP1) + XXP4)

/-- Consume 32-byte stripes while at least 32 bytes remain. -/
def xxh64Stripes : List Nat → Nat → Nat → Nat → Nat → (List Nat × Nat × Nat × Nat × Nat)
  | b0 :: b1 :: b2 :: b3 :: b4 :: b5 :: b6 :: b7 ::
    b8 :: b9 :: b10 :: b11 :: b12 :: b13 :: b14 :: b15 ::
    b16 :: b17 :: b18 :: b19 :: b20 :: b21 :: b22 :: b23 ::
    b24 :: b25 :: b26 :: b27 :: b28 :: b29 :: b30 :: b31 :: rest, v1, v2, v3, v4 =>
      xxh64Stripes rest
        (xxh64Round v1 (leNat [b0, b1, b2, b3, b4, b5, b6, b7]))
        (xxh64Round v2 (leNat [b8, b9, b10, b11, b12, b13, b14, b15]))
        (xxh64Round v3 (leNat [b16, b17, b18, b19, b20, b21, b22, b23]))
        (xxh64Round v4 (leNat [b24, b25, b26, b27, b28, b29, b30, b31]))
  | l, v1, v2, v3, v4 => (l, v1, v2, v3, v4)

/-- Finalisation: consume 8-byte words while at least 8 bytes remain. -/
def xxh64Fin8 : List Nat → Nat → (List Nat × Nat)
  | b0 :: b1 :: b2 :: b3 :: b4 :: b5 :: b6 :: b7 :: rest, acc =>
      xxh64Fin8 rest
        (m64 (m64 (rotl64 (acc ^^^ xxh64Round 0 (leNat [b0, b1, b2, b3, b4, b5, b6, b7])) 27 * XXP1) + XXP4))
  | l, acc => (l, acc)

/-- Finalisation: consume one 4-byte word if at least 4 bytes remain. -/
def xxh64Fin4 : List Nat → Nat → (List Nat × Nat)
  | b0 :: b1 :: b2 :: b3 :: rest, acc =>
      (rest, m64 (m64 (rotl64 (acc ^^^ m64 (leNat [b0, b1, b2, b3] * XXP1)) 23 * XXP2) + XXP3))
  | l, acc => (l, acc)

/-- xxh64 avalanche mixing of the final accumulator. -/
def xxh64Avalanche (acc : Nat) : Nat :=
  let a1 := acc ^^^ (acc >>> 33)
  let a2 := m64 (a1 * XXP2)
  let a3 := a2 ^^^ (a2 >>> 29)
  let a4 := m64 (a3 * XXP3)
  a4 ^^^ (a4 >>> 32)

/-- The xxh64 hash of a byte list with the given seed (the hasher always uses
seed 0, matching `xxh64(&buffer, 0)` in `hasher.rs`). -/
def xxh64 (input : List Nat) (seed : Nat) : Nat :=
  let n := input.length
  let ra :=
    if 32 ≤ n then
      let s := xxh64Stripes input (m64 (seed + XXP1 + XXP2)) (m64 (seed + XXP2)) (m64 seed)
        (m64 (seed + (M64 - XXP1)))
      let acc0 := m64 (rotl64 s.2.1 1 + rotl64 s.2.2.1 7 + rotl64 s.2.2.2.1 12 + rotl64 s.2.2.2.2 18)
      (s.1, xxh64Merge (xxh64Merge (xxh64Merge (xxh64Merge acc0 s.2.1) s.2.2.1) s.2.2.2.1) s.2.2.2.2)
    else (input, m64 (seed + XXP5))
  let acc1 := m64 (ra.2 + n)
  let r8 := xxh64Fin8 ra.1 acc1
  let r4 := xxh64Fin4 r8.1 r8.2
  let acc4 := r4.1.foldl (fun a b => m64 (rotl64 (a ^^^ m64 ((b % 256) * XXP5)) 11 * XXP1)) r4.2
  xxh64Avalanche acc4

/-! ## Partial hasher: fingerprint format (hasher.rs, `compute_file_hash`) -/

/-- `CHUNK_SIZE` from hasher.rs: 64 KB. -/
def CHUNK_SIZE : Nat := 65536

/-- `PROGRESS_BATCH_SIZE` from hasher.rs: progress is reported every 100 files. -/
def PROGRESS_BATCH_SIZE : Nat := 100

/-- The sixteen lowercase hexadecimal digit characters. -/
def hexChars : List Char := "0123456789abcdef".data

/-- Lowercase hexadecimal digit of `n % 16`. -/
def hexDigit (n : Nat) : Char := hexChars.getD (n % 16) '0'

/-- Rust `format!("{:016x}", v)` for `v : u64`: sixteen lowercase hex digits,
most significant nibble first, zero padded. -/
def hex16 (n : Nat) : String := String.mk ((List.range 16).map (fun i => hexDigit (n >>> (4 * (15 - i)))))

/-- The fingerprint string computed by `compute_file_hash` from an open file's
content (`hasher.rs` lines 46-74): small files hash the whole content once and
write it twice; large files hash the first and the last `CHUNK_SIZE` bytes
(`read_exact` of the first chunk, then `seek(SeekFrom::End(-CHUNK_SIZE))`
followed by `read_exact` of the last chunk). -/
def fileFingerprint (content : List Nat) : String :=
  let size := content.length
  if size < CHUNK_SIZE * 2 then
    let h := xxh64 content 0
    "xxh64:" ++ hex16 h ++ ":" ++ hex16 h ++ ":" ++ toString size
  else
    let first_hash := xxh64 (content.take CHUNK_SIZE) 0
    let last_hash := xxh64 ((content.drop (size - CHUNK_SIZE)).take CHUNK_SIZE) 0
    "xxh64:" ++ hex16 first_hash ++ ":" ++ hex16 last_hash ++ ":" ++ toString size

/-- A file system for the hasher: a path either opens to its byte content or
fails (any open/stat/read failure of the Rust code is a `.error`). -/
def HFsys : Type := String → Option (List Nat)

/-- `compute_file_hash` (hasher.rs lines 43-75): `Ok` fingerprint or per-file
error message. -/
def compute_file_hash (fsys : HFsys) (path : String) : Except String String :=
  match fsys path with
  | none => .error "No such file or directory (os error 2)"
  | some content => .ok (fileFingerprint content)

/-! ## Partial hasher: batching, progress, cancellation (hasher.rs, `hash_files`) -/

/-- `FileHash` from hasher.rs: one result per input path. -/
structure FileHash where
  path : String
  hash : Option String
  error : Option String
deriving DecidableEq

/-- The per-path arm of the rayon map in `hash_files` (hasher.rs lines 109-120):
an `Ok` hash gives `hash = some, error = none`, an `Err` gives the opposite. -/
def hashOne (fsys : HFsys) (path : String) : FileHash :=
  match compute_file_hash fsys path with
  | .ok h => ⟨path, some h, none⟩
  | .error e => ⟨path, none, some e⟩

/-- Rust `slice::chunks PROGRESS_BATCH_SIZE`: groups of 100 in order, the last
group possibly shorter, the empty list giving no groups. -/
def chunksAux : List String → List String → List (List String)
  | [], acc => if acc = [] then [] else [acc]
  | x :: xs, acc =>
      if acc.length + 1 = PROGRESS_BATCH_SIZE then (acc ++ [x]) :: chunksAux xs []
      else chunksAux xs (acc ++ [x])

/-- The chunks of a path list, batch size `PROGRESS_BATCH_SIZE`. -/
def listChunks (l : List String) : List (List String) := chunksAux l []

/-- Progress-rate computation shared by walker and hasher (discovery.rs lines
123-128, hasher.rs lines 128-133): `count / elapsed` guarded so that a zero
elapsed time reports a zero rate instead of dividing. The `f64` arithmetic is
modelled over `ℚ`. -/
def computeRate (count : Nat) (elapsed : ℚ) : ℚ :=
  if 0 < elapsed then (count : ℚ) / elapsed else 0

/-- Observable events of one `hash_files` call: a `py.check_signals()` call, or
a progress callback `cb(processed, total, rate)`; the event also records the
elapsed time that produced the rate. -/
inductive HEvent where
  | check
  | progress (processed total : Nat) (elapsed rate : ℚ)
deriving DecidableEq

/-- The batch loop of `hash_files` (hasher.rs lines 101-135 with a callback,
lines 142-166 without): before each batch the signal oracle is consulted (a
pending signal raises `KeyboardInterrupt` and aborts the whole call); the batch
is hashed by an order-preserving parallel map; with a callback present a
progress event is emitted after the batch. `k` counts batches (indexing the
signal and clock oracles), `processed` counts hashed paths. -/
def hashBatches (fsys : HFsys) (sig : Nat → Bool) (clock : Nat → ℚ) (hasCb : Bool) (total : Nat) :
    List (List String) → Nat → Nat → List FileHash → List HEvent →
    Except String (List FileHash × List HEvent)
  | [], _, _, results, events => .ok (results, events)
  | chunk :: rest, k, processed, results, events =>
      if sig k then .error "KeyboardInterrupt"
      else
        let rs := chunk.map (hashOne fsys)
        let processed' := processed + rs.length
        hashBatches fsys sig clock hasCb total rest (k + 1) processed'
          (results ++ rs)
          (events ++ [.check] ++
            (if hasCb then [.progress processed' total (clock k) (computeRate processed' (clock k))]
             else []))

/-- `hash_files` (hasher.rs lines 88-170): batch the input paths, hash each
batch in parallel, report progress between batches. Never fails for per-file
problems; the only failure is a pending interrupt signal. -/
def hash_files (fsys : HFsys) (sig : Nat → Bool) (clock : Nat → ℚ) (hasCb : Bool)
    (paths : List String) : Except String (List FileHash × List HEvent) :=
  hashBatches fsys sig clock hasCb paths.length (listChunks paths) 0 0 [] []

/-! ## Discovery walker: filesystem model (discovery.rs) -/

/-- One entry of a directory, as the walker sees it: a regular file with name,
size and mtime, or a directory reference. A directory reference carries the
canonical identifier of the directory it denotes (`Path::canonicalize` of the
entry resolves to this id) and whether the reference is a symbolic link; a
plain subdirectory and a symlink to a directory resolve the same way. -/
inductive DEntry where
  | file (name : String) (size : Nat) (modified : ℚ)
  | dir (name : String) (target : Nat) (isLink : Bool)
deriving DecidableEq

/-- A directory forest: canonical directories `0, ..., numDirs - 1`, each with
an ordered entry list (the order `walkdir` enumerates them in). -/
structure DirFS where
  numDirs : Nat
  entries : Nat → List DEntry

/-- Well-formedness: directory references point inside the filesystem. -/
def DirFS.Wf (fs : DirFS) : Prop :=
  ∀ d name target isLink, DEntry.dir name target isLink ∈ fs.entries d → target < fs.numDirs

/-- The kind of a yielded walk entry: directory, regular file, or (with
`follow_symlinks` off) an unfollowed symlink. -/
inductive WKind where
  | dirK
  | fileK (size : Nat) (modified : ℚ)
  | linkK
deriving DecidableEq

/-- One entry yielded by the `walkdir` iteration: its path (name components
below the traversal root), its depth, and its kind. -/
structure WalkEntry where
  path : List String
  depth : Nat
  kind : WKind
deriving DecidableEq

/-- The file name of a yielded entry (last path component; `""` for the root). -/
def entryName (e : WalkEntry) : String := e.path.getLastD ""

/-- Rust `str::starts_with('.')` on a file name: the first character is a dot
(modelled over the character list, which the kernel can evaluate). -/
def startsWithDot (s : String) : Bool :=
  match s.data with
  | [] => false
  | c :: _ => c == '.'

/-- Rust `char` lowercasing for ASCII letters (`to_lowercase` on the extension
strings, which are ASCII). -/
def lowerChar (c : Char) : Char :=
  if 65 ≤ c.toNat ∧ c.toNat ≤ 90 then Char.ofNat (c.toNat + 32) else c

/-- Rust `str::to_lowercase`. -/
def lowerString (s : String) : String := String.mk (s.data.map lowerChar)

/-- The characters after the last `'.'` of a character list, if any. -/
def lastDotSplit : List Char → Option (List Char)
  | [] => none
  | c :: rest =>
      match lastDotSplit rest with
      | some e => some e
      | none => if c == '.' then some rest else none

/-- One step of the sequential walk over a directory's entry list, mirroring the
`filter_entry` predicate of discovery.rs lines 86-108 applied to each child:

* a regular file always passes the filter and is yielded;
* with `follow_symlinks` off a symlink has file type *symlink* (neither file nor
  directory), so both filter conditions skip it: it is yielded but not followed;
* a directory whose name starts with `'.'` at depth > 0 is pruned (not yielded,
  not descended into);
* with `follow_symlinks` on, a directory whose canonical id is already in the
  visited set is skipped, otherwise the id is inserted and the directory is
  yielded and descended into (the walk is single threaded, so the lock-guarded
  contains-then-insert of lines 99-103 is this sequential check-and-insert).

`wrec` is the recursive descent at one less fuel. -/
def walkStep (follow : Bool)
    (wrec : Nat → List String → Nat → List Nat → Option (List WalkEntry × List Nat))
    (path : List String) (depth : Nat) :
    Option (List WalkEntry × List Nat) → DEntry → Option (List WalkEntry × List Nat)
  | none, _ => none
  | some (out, vis), .file name size modified =>
      some (out ++ [⟨path ++ [name], depth + 1, .fileK size modified⟩], vis)
  | some (out, vis), .dir name target isLink =>
      if follow = false ∧ isLink = true then
        some (out ++ [⟨path ++ [name], depth + 1, .linkK⟩], vis)
      else if startsWithDot name = true ∧ 0 < depth + 1 then
        some (out, vis)
      else if follow = true ∧ target ∈ vis then
        some (out, vis)
      else
        match wrec target (path ++ [name]) (depth + 1) (if follow then target :: vis else vis) with
        | none => none
        | some (sub, vis') => some (out ++ ⟨path ++ [name], depth + 1, .dirK⟩ :: sub, vis')

/-- Depth-first walk of the directory `dirId` (the directory entry itself has
already been yielded by the caller): yields each child in entry order, with a
directory's entry immediately followed by its subtree, exactly as `walkdir`
enumerates. `fuel` bounds the depth of nested descents; the real walk needs at
most one descent per canonical directory when symlinks are followed
(`walkDir_isSome` below), so fuel is a bound, not behaviour. -/
def walkDir (fs : DirFS) (follow : Bool) :
    Nat → Nat → List String → Nat → List Nat → Option (List WalkEntry × List Nat)
  | 0, _, _, _, _ => none
  | fuel + 1, dirId, path, depth, visited =>
      (fs.entries dirId).foldl (walkStep follow (walkDir fs follow fuel) path depth)
        (some ([], visited))

/-! ## Discovery walker: extension filtering (discovery.rs lines 54, 111-114, 160-167) -/

/-- Rust `Path::extension` on a file name: `none` when the name contains no
`'.'`, or when it begins with `'.'` and contains no other `'.'`; otherwise the
portion after the final `'.'`. -/
def pathExtension (name : String) : Option String :=
  match name.data with
  | [] => none
  | c0 :: rest =>
      if c0 == '.' then
        match lastDotSplit rest with
        | none => none
        | some e => some (String.mk e)
      else
        match lastDotSplit (c0 :: rest) with
        | none => none
        | some e => some (String.mk e)

/-- Lowercase the extension set once, as discovery.rs line 54 does. -/
def lowerExts (exts : List String) : List String := exts.map lowerString

/-- Extension match of a file name against the (already lowercased) extension
set: the lowercased extension must be contained in the set; names without an
extension never match. -/
def extMatch (exts : List String) (name : String) : Bool :=
  match pathExtension name with
  | none => false
  | some ext => exts.contains (lowerString ext)

/-- `DiscoveredFile` from discovery.rs (the path is kept as its component list
below the root). -/
structure DiscoveredFile where
  path : List String
  size : Nat
  modified : ℚ
deriving DecidableEq

/-- The parallel metadata phase (discovery.rs lines 152-184): an
order-preserving parallel filter-map keeping regular files with a matching
extension and attaching their stat metadata. -/
def processEntries (exts : List String) (entries : List WalkEntry) : List DiscoveredFile :=
  entries.filterMap fun e =>
    match e.kind with
    | .fileK size modified =>
        if extMatch exts (entryName e) then some ⟨e.path, size, modified⟩ else none
    | _ => none

/-! ## Discovery walker: progress and cancellation (discovery.rs lines 78-150) -/

/-- Observable events of the walk loop: a `py.check_signals()` call or a
progress callback `cb(files_found, rate)`, recording also the elapsed time the
rate was computed from. -/
inductive WEvent where
  | check
  | progress (count : Nat) (elapsed rate : ℚ)
deriving DecidableEq

/-- State of the sequential collection loop of discovery.rs lines 79-137:
collected entries, matched-file count, count at the last report, number of
signal checks so far, and the emitted events. -/
structure LoopState where
  acc : List WalkEntry
  found : Nat
  last : Nat
  checks : Nat
  events : List WEvent
deriving DecidableEq

/-- The initial loop state. -/
def initLoopState : LoopState := ⟨[], 0, 0, 0, []⟩

/-- The sequential collection loop (discovery.rs lines 84-137): every yielded
entry is collected; a regular file with matching extension increments
`files_found`; whenever `files_found - last_reported >= 100` the loop checks
for a pending signal (aborting with `KeyboardInterrupt` if one is present),
then, if a callback is present, reports `(files_found, rate)`, and updates
`last_reported`. `sig` is indexed by the number of checks made so far, `clock`
by the count being reported. -/
def discoverLoop (sig : Nat → Bool) (cb : Bool) (clock : Nat → ℚ) (exts : List String) :
    List WalkEntry → LoopState → Except String LoopState
  | [], st => .ok st
  | e :: rest, st =>
      match e.kind with
      | .fileK _ _ =>
          if extMatch exts (entryName e) then
            let found' := st.found + 1
            if 100 ≤ found' - st.last then
              if sig st.checks then .error "KeyboardInterrupt"
              else
                discoverLoop sig cb clock exts rest
                  { acc := st.acc ++ [e], found := found', last := found',
                    checks := st.checks + 1,
                    events := st.events ++ [.check] ++
                      (if cb then [.progress found' (clock found') (computeRate found' (clock found'))]
                       else []) }
            else
              discoverLoop sig cb clock exts rest
                { st with acc := st.acc ++ [e], found := found' }
          else discoverLoop sig cb clock exts rest { st with acc := st.acc ++ [e] }
      | _ => discoverLoop sig cb clock exts rest { st with acc := st.acc ++ [e] }

/-- The final progress report (discovery.rs lines 139-150): if a callback is
present and the final count was not the last reported one, report it. Note the
source performs no signal check here. -/
def discoverFinish (cb : Bool) (clock : Nat → ℚ) (st : LoopState) : LoopState :=
  if cb = true ∧ st.found ≠ st.last then
    { st with events := st.events ++
        [.progress st.found (clock st.found) (computeRate st.found (clock st.found))] }
  else st

/-! ## Discovery walker: entry point (discovery.rs, `discover_videos`) -/

/-- The stat of the root path: missing, existing but not a directory, or a
directory with a canonical id. -/
inductive RootStat where
  | missing
  | notDir
  | dirAt (id : Nat)
deriving DecidableEq

/-- The errors `discover_videos` can raise. `fuelExhausted` is a model
artifact: the embedded walk carries fuel `numDirs + 1`, which never runs out
when symlinks are followed (`walkDir_isSome`) or the directory graph is a
forest, matching every real filesystem. -/
inductive DiscoverError where
  | notFound (msg : String)
  | notADirectory (msg : String)
  | interrupted (msg : String)
  | fuelExhausted
deriving DecidableEq

/-- `discover_videos` (discovery.rs lines 47-187): check the root, lowercase
the extension set, run the filtered walk (the `filter_entry` predicate is also
applied to the root entry itself, at depth 0), run the sequential
counting/progress loop over the yielded entries, report once more at the end
if needed, then extract metadata of matching files in parallel. -/
def discover_videos (fs : DirFS) (rootStat : RootStat) (rootName : String)
    (extsIn : List String) (follow : Bool)
    (sig : Nat → Bool) (cb : Bool) (clock : Nat → ℚ) :
    Except DiscoverError (List DiscoveredFile × List WEvent) :=
  match rootStat with
  | .missing => .error (.notFound ("Directory not found: " ++ rootName))
  | .notDir => .error (.notADirectory ("Not a directory: " ++ rootName))
  | .dirAt root =>
      let exts := lowerExts extsIn
      if startsWithDot rootName = true ∧ 0 < (0 : Nat) then .ok ([], [])
      else
        match walkDir fs follow (fs.numDirs + 1) root [] 0 (if follow then [root] else []) with
        | none => .error .fuelExhausted
        | some (sub, _) =>
            match discoverLoop sig cb clock exts (⟨[], 0, .dirK⟩ :: sub) initLoopState with
            | .error m => .error (.interrupted m)
            | .ok st =>
                let st' := discoverFinish cb clock st
                .ok (processEntries exts st'.acc, st'.events)

/-! ## Predicates and bookkeeping used by the theorems -/

/-- A well-formed hex field: exactly 16 characters, all lowercase hex digits. -/
def IsHex16 (s : String) : Prop := s.length = 16 ∧ ∀ c ∈ s.data, c ∈ hexChars

/-- Invariant of the walker's visited set: no duplicates, all ids inside the
filesystem. -/
def VisOk (fs : DirFS) (vis : List Nat) : Prop :=
  vis.Nodup ∧ ∀ v ∈ vis, v < fs.numDirs

/-- Number of matched files (regular files whose extension is in the set)
among a list of walk entries — the value `files_found` reaches. -/
def matchedCount (exts : List String) (l : List WalkEntry) : Nat :=
  l.countP fun e =>
    match e.kind with
    | .fileK _ _ => extMatch exts (entryName e)
    | _ => false

/-- The events emitted when the match count crosses a multiple of 100:
one signal check, then (with a callback) one progress report. -/
def crossingEvents (cb : Bool) (clock : Nat → ℚ) (c : Nat) : List WEvent :=
  .check :: (if cb then [.progress c (clock c) (computeRate c (clock c))] else [])

/-- The full event trace after `k` crossings: crossings at `100, 200, ...,
100 * k`. -/
def allCrossingEvents (cb : Bool) (clock : Nat → ℚ) (k : Nat) : List WEvent :=
  ((List.range k).map fun i => crossingEvents cb clock (100 * (i + 1))).flatten

/-- Number of signal checks recorded in a walker event trace. -/
def countChecks (l : List WEvent) : Nat :=
  l.countP fun e => match e with | .check => true | _ => false

/-- The walk-loop invariant tying the state to `found`: `last_reported` is the
largest multiple of 100 not above `found`, one check per crossing, and the
event trace is exactly the crossing events so far. -/
def LoopInv (cb : Bool) (clock : Nat → ℚ) (st : LoopState) : Prop :=
  st.last = 100 * (st.found / 100) ∧ st.checks = st.found / 100 ∧
    st.events = allCrossingEvents cb clock (st.found / 100)

/-! ## Concrete fixtures -/

/-- The signal oracle with no pending signal. -/
def sigOff : Nat → Bool := fun _ => false

/-- The signal oracle with a permanently pending signal. -/
def sigOn : Nat → Bool := fun _ => true

/-- A clock stuck at elapsed time zero. -/
def clockZ : Nat → ℚ := fun _ => 0

/-- A directory `A` (id 0) containing one video file and a symlinked
subdirectory pointing back at `A` itself: the symlink-cycle scenario. -/
def cycleFS : DirFS :=
  ⟨1, fun d => match d with
    | 0 => [.file "f.mkv" 10 0, .dir "loop" 0 true]
    | _ => []⟩

/-- A single directory holding one video file; used with a dot-named root. -/
def dotRootFS : DirFS :=
  ⟨1, fun d => match d with
    | 0 => [.file "a.mkv" 5 0]
    | _ => []⟩

/-- The concrete scenario of the spec: `video.mkv`, `video.mp4`, `note.txt`,
10 bytes each. -/
def videoFS : DirFS :=
  ⟨1, fun d => match d with
    | 0 => [.file "video.mkv" 10 1, .file "video.mp4" 10 2, .file "note.txt" 10 3]
    | _ => []⟩

/-- A single matched file entry, as yielded by the walk of `dotRootFS`. -/
def oneMatchEntry : WalkEntry := ⟨["a.mkv"], 1, .fileK 5 0⟩

/-- A root directory with one plain subdirectory `sub` holding `b.mkv`. -/
def subFS : DirFS :=
  ⟨2, fun d => match d with
    | 0 => [.dir "sub" 1 false]
    | 1 => [.file "b.mkv" 3 0]
    | _ => []⟩

/-- A hasher event reports a rate consistent with the guarded rate formula. -/
def HEventRate (e : HEvent) : Prop :=
  ∀ p t el r, e = .progress p t el r → r = computeRate p el

/-- A walker event reports a rate consistent with the guarded rate formula. -/
def WEventRate (e : WEvent) : Prop :=
  ∀ c el r, e = .progress c el r → r = computeRate c el

/-- A regular-file walk entry yielded below the path `p` sits at `p ++ suf`
where no directory component of `suf` (that is, no component except the file
name itself) starts with a dot. -/
def GoodFileEntry (p : List String) (e : WalkEntry) : Prop :=
  (∃ s m, e.kind = WKind.fileK s m) →
    ∃ suf, suf ≠ [] ∧ e.path = p ++ suf ∧ ∀ c ∈ suf.dropLast, startsWithDot c = false

/-! ## Lemmas about the hasher -/

theorem hexDigit_mem (n : Nat) : hexDigit n ∈ hexChars := by
  have h : n % 16 < 16 := Nat.mod_lt _ (by norm_num)
  unfold hexDigit
  set k := n % 16 with hk
  interval_cases k <;> decide

theorem hex16_length (n : Nat) : (hex16 n).length = 16 := by
  simp [hex16, String.length]

theorem hex16_mem (n : Nat) : ∀ c ∈ (hex16 n).data, c ∈ hexChars := by
  intro c hc
  simp only [hex16] at hc
  obtain ⟨i, _, rfl⟩ := List.mem_map.mp hc
  exact hexDigit_mem _

theorem hex16_isHex16 (n : Nat) : IsHex16 (hex16 n) := ⟨hex16_length n, hex16_mem n⟩

theorem fileFingerprint_small (c : List Nat) (h : c.length < 131072) :
    fileFingerprint c =
      "xxh64:" ++ hex16 (xxh64 c 0) ++ ":" ++ hex16 (xxh64 c 0) ++ ":" ++ toString c.length := by
  simp only [fileFingerprint, CHUNK_SIZE]
  rw [if_pos (by omega)]

theorem fileFingerprint_large (c : List Nat) (h : 131072 ≤ c.length) :
    fileFingerprint c =
      "xxh64:" ++ hex16 (xxh64 (c.take 65536) 0) ++ ":" ++
        hex16 (xxh64 ((c.drop (c.length - 65536)).take 65536) 0) ++ ":" ++ toString c.length := by
  simp only [fileFingerprint, CHUNK_SIZE]
  rw [if_neg (by omega)]

theorem fileFingerprint_replicate (n : Nat) (h : 131072 ≤ n) :
    fileFingerprint (List.replicate n 0) =
      "xxh64:" ++ hex16 (xxh64 (List.replicate 65536 0) 0) ++ ":" ++
        hex16 (xxh64 (List.replicate 65536 0) 0) ++ ":" ++ toString n := by
  have h1 : (List.replicate n (0 : Nat)).take 65536 = List.replicate 65536 0 := by
    rw [List.take_replicate, show min 65536 n = 65536 by omega]
  have h2 : ((List.replicate n (0 : Nat)).drop ((List.replicate n (0 : Nat)).length - 65536)).take 65536 =
      List.replicate 65536 0 := by
    rw [List.length_replicate, List.drop_replicate, List.take_replicate]
    rw [show min 65536 (n - (n - 65536)) = 65536 by omega]
  rw [fileFingerprint_large _ (by simpa using h), h1, h2, List.length_replicate]

theorem chunksAux_flatten (l : List String) :
    ∀ acc : List String, (chunksAux l acc).flatten = acc ++ l := by
  induction l with
  | nil =>
      intro acc
      by_cases h : acc = [] <;> simp [chunksAux, h]
  | cons x xs ih =>
      intro acc
      simp only [chunksAux]
      by_cases h : acc.length + 1 = PROGRESS_BATCH_SIZE
      · rw [if_pos h]; simp [ih]
      · rw [if_neg h]; rw [ih]; simp

theorem listChunks_flatten (l : List String) : (listChunks l).flatten = l := by
  simpa [listChunks] using chunksAux_flatten l []

theorem hashBatches_ok_results (fsys : HFsys) (sig : Nat → Bool) (clock : Nat → ℚ)
    (hasCb : Bool) (total : Nat) :
    ∀ (cs : List (List String)) (k processed : Nat) (rs : List FileHash) (ev : List HEvent)
      (rs' : List FileHash) (ev' : List HEvent),
      hashBatches fsys sig clock hasCb total cs k processed rs ev = .ok (rs', ev') →
      rs' = rs ++ cs.flatten.map (hashOne fsys) := by
  intro cs
  induction cs with
  | nil =>
      intro k p rs ev rs' ev' h
      simp only [hashBatches, Except.ok.injEq, Prod.mk.injEq] at h
      simp [← h.1]
  | cons c rest ih =>
      intro k p rs ev rs' ev' h
      simp only [hashBatches] at h
      by_cases hs : sig k
      · rw [if_pos hs] at h; exact absurd h (by simp)
      · rw [if_neg hs] at h
        rw [ih _ _ _ _ _ _ h]
        simp

theorem hashBatches_ok_of_sigOff (fsys : HFsys) (sig : Nat → Bool) (clock : Nat → ℚ)
    (hasCb : Bool) (total : Nat) (hsig : ∀ k, sig k = false) :
    ∀ (cs : List (List String)) (k processed : Nat) (rs : List FileHash) (ev : List HEvent),
      ∃ rs' ev', hashBatches fsys sig clock hasCb total cs k processed rs ev = .ok (rs', ev') := by
  intro cs
  induction cs with
  | nil => intro k p rs ev; exact ⟨rs, ev, rfl⟩
  | cons c rest ih =>
      intro k p rs ev
      simp only [hashBatches, hsig k, Bool.false_eq_true, if_false]
      exact ih _ _ _ _

theorem hashBatches_events_rate (fsys : HFsys) (sig : Nat → Bool) (clock : Nat → ℚ)
    (hasCb : Bool) (total : Nat) :
    ∀ (cs : List (List String)) (k processed : Nat) (rs : List FileHash) (ev : List HEvent)
      (rs' : List FileHash) (ev' : List HEvent),
      hashBatches fsys sig clock hasCb total cs k processed rs ev = .ok (rs', ev') →
      (∀ e ∈ ev, HEventRate e) → ∀ e ∈ ev', HEventRate e := by
  intro cs
  induction cs with
  | nil =>
      intro k p rs ev rs' ev' h hev
      simp only [hashBatches, Except.ok.injEq, Prod.mk.injEq] at h
      rw [← h.2]
      exact hev
  | cons c rest ih =>
      intro k p rs ev rs' ev' h hev
      simp only [hashBatches] at h
      by_cases hs : sig k
      · rw [if_pos hs] at h; exact absurd h (by simp)
      · rw [if_neg hs] at h
        refine ih _ _ _ _ _ _ h ?_
        intro e he
        rcases List.mem_append.mp he with he1 | he2
        · rcases List.mem_append.mp he1 with he3 | he4
          · exact hev e he3
          · rw [List.mem_singleton] at he4
            subst he4
            intro pp tt el r hpe
            cases hpe
        · by_cases hcb : hasCb
          · rw [if_pos hcb, List.mem_singleton] at he2
            subst he2
            intro pp tt el r hpe
            cases hpe
            rfl
          · rw [if_neg hcb] at he2; cases he2

/-! ## Claims about the hasher -/

/-- C2: for every file with size < 131072 bytes, the fingerprint hashes the
entire content once (xxh64, seed 0, value `H`) and emits
`"xxh64:<H hex16>:<H hex16>:<size>"`, so the first and last hash fields are
identical; the hex field is lowercase, zero padded to 16 digits, and the size
field is the decimal `toString` of the size. -/
theorem hasher_small_file_format (fsys : HFsys) (p : String) (c : List Nat)
    (hfs : fsys p = some c) (hsize : c.length < 131072) :
    compute_file_hash fsys p =
      .ok ("xxh64:" ++ hex16 (xxh64 c 0) ++ ":" ++ hex16 (xxh64 c 0) ++ ":" ++
        toString c.length) ∧
    IsHex16 (hex16 (xxh64 c 0)) := by
  constructor
  · simp only [compute_file_hash, hfs]
    rw [fileFingerprint_small c hsize]
  · exact hex16_isHex16 _

/-- Witness for C2 at the concrete file content `[1, 2, 3]`. -/
theorem hasher_small_file_format_w :
    compute_file_hash (fun _ => some [1, 2, 3]) "f" =
      .ok ("xxh64:" ++ hex16 (xxh64 [1, 2, 3] 0) ++ ":" ++ hex16 (xxh64 [1, 2, 3] 0) ++ ":" ++
        toString (3 : Nat)) ∧
    IsHex16 (hex16 (xxh64 [1, 2, 3] 0)) := by
  have h := hasher_small_file_format (fun _ => some [1, 2, 3]) "f" [1, 2, 3] rfl (by norm_num)
  simpa using h

/-- C1 counterexample: truncating only the middle of a large file does change
its fingerprint, because the decimal size field changes. The 131073-byte file
of zero bytes, with the single middle byte cut out (keeping the first 65536
and the last 65536 bytes), fingerprints differently. -/
theorem hasher_truncation_changes_fingerprint_cex :
    131072 ≤ (List.replicate 131073 (0 : Nat)).length ∧
    (List.replicate 131073 (0 : Nat)).take 65536 ++ (List.replicate 131073 (0 : Nat)).drop 65537 =
      List.replicate 131072 (0 : Nat) ∧
    fileFingerprint (List.replicate 131073 (0 : Nat)) ≠
      fileFingerprint (List.replicate 131072 (0 : Nat)) := by
  refine ⟨by rw [List.length_replicate]; omega, ?_, ?_⟩
  · rw [List.take_replicate, List.drop_replicate, ← List.replicate_add]
    rw [show min 65536 131073 + (131073 - 65537) = 131072 by omega]
  · intro hEq
    rw [fileFingerprint_replicate 131073 (by norm_num),
      fileFingerprint_replicate 131072 (by norm_num)] at hEq
    have hd := congrArg String.data hEq
    simp only [String.data_append] at hd
    have h2 := List.append_cancel_left hd
    rw [show (toString (131073 : Nat)) = "131073" from rfl,
      show (toString (131072 : Nat)) = "131072" from rfl] at h2
    exact absurd h2 (by decide)

/-- C1 (amended): for every file with size >= 131072 bytes, the fingerprint is
computed by hashing exactly the first 65536 and the last 65536 bytes (xxh64,
seed 0) and is emitted as `"xxh64:<first hex16>:<last hex16>:<size>"`;
consequently modifying only the middle of such a file, keeping its size, does
not change its fingerprint (truncating the middle changes the decimal size
field and therefore the fingerprint, see the counterexample). -/
theorem hasher_large_file_format (fsys : HFsys) (p q : String) (c d : List Nat)
    (hp : fsys p = some c) (hq : fsys q = some d)
    (hsize : 131072 ≤ c.length) (hlen : c.length = d.length)
    (hfirst : c.take 65536 = d.take 65536)
    (hlast : c.drop (c.length - 65536) = d.drop (d.length - 65536)) :
    compute_file_hash fsys p =
      .ok ("xxh64:" ++ hex16 (xxh64 (c.take 65536) 0) ++ ":" ++
        hex16 (xxh64 ((c.drop (c.length - 65536)).take 65536) 0) ++ ":" ++
        toString c.length) ∧
    compute_file_hash fsys p = compute_file_hash fsys q := by
  have h2 : 131072 ≤ d.length := hlen ▸ hsize
  constructor
  · simp only [compute_file_hash, hp]
    rw [fileFingerprint_large c hsize]
  · simp only [compute_file_hash, hp, hq]
    rw [fileFingerprint_large c hsize, fileFingerprint_large d h2, hfirst, hlast, hlen]

/-- Witness for C1 at a 131073-byte file and the same file with its middle
byte replaced: equal size, equal first and last 64 KB, equal fingerprints. -/
theorem hasher_large_file_format_w :
    compute_file_hash
        (fun s => if s = "p" then some (List.replicate 131073 0)
          else some (List.replicate 65536 0 ++ 7 :: List.replicate 65536 0)) "p" =
      .ok ("xxh64:" ++ hex16 (xxh64 ((List.replicate 131073 (0 : Nat)).take 65536) 0) ++ ":" ++
        hex16 (xxh64 (((List.replicate 131073 (0 : Nat)).drop
          ((List.replicate 131073 (0 : Nat)).length - 65536)).take 65536) 0) ++ ":" ++
        toString (List.replicate 131073 (0 : Nat)).length) ∧
    compute_file_hash
        (fun s => if s = "p" then some (List.replicate 131073 0)
          else some (List.replicate 65536 0 ++ 7 :: List.replicate 65536 0)) "p" =
      compute_file_hash
        (fun s => if s = "p" then some (List.replicate 131073 0)
          else some (List.replicate 65536 0 ++ 7 :: List.replicate 65536 0)) "q" := by
  have hlen65 : (List.replicate 65536 (0 : Nat) ++ 7 :: List.replicate 65536 0).length = 131073 := by
    rw [List.length_append, List.length_cons, List.length_replicate]
  have hfirst : (List.replicate 131073 (0 : Nat)).take 65536 =
      (List.replicate 65536 (0 : Nat) ++ 7 :: List.replicate 65536 0).take 65536 := by
    rw [List.take_replicate, show min 65536 131073 = 65536 by omega,
      List.take_append_eq_append_take, List.take_replicate,
      show min 65536 65536 = 65536 by omega, List.length_replicate,
      show (65536 : Nat) - 65536 = 0 by omega, List.take_zero, List.append_nil]
  have hlast : (List.replicate 131073 (0 : Nat)).drop
        ((List.replicate 131073 (0 : Nat)).length - 65536) =
      (List.replicate 65536 (0 : Nat) ++ 7 :: List.replicate 65536 0).drop
        ((List.replicate 65536 (0 : Nat) ++ 7 :: List.replicate 65536 0).length - 65536) := by
    rw [List.length_replicate, hlen65, show (131073 : Nat) - 65536 = 65537 by omega,
      List.drop_replicate, show (131073 : Nat) - 65537 = 65536 by omega,
      List.drop_append_eq_append_drop, List.drop_replicate, List.length_replicate,
      show (65536 : Nat) - 65537 = 0 by omega, show (65537 : Nat) - 65536 = 1 by omega,
      List.replicate_zero, List.nil_append, List.drop_succ_cons, List.drop_zero]
  exact hasher_large_file_format _ "p" "q" (List.replicate 131073 0)
    (List.replicate 65536 0 ++ 7 :: List.replicate 65536 0) rfl rfl
    (by rw [List.length_replicate]; omega)
    (by rw [List.length_replicate, hlen65]) hfirst hlast

/-- C3: `hash_files` never fails globally for per-file problems: the empty
input yields `Ok` with an empty result; with no pending signal every input
succeeds; and every successful call returns exactly one result per input path
(same cardinality), each carrying exactly one outcome — a hash and no error,
or an error and no hash — even when opening the file fails. -/
theorem hash_files_one_result_per_path :
    (∀ (fsys : HFsys) (sig : Nat → Bool) (clock : Nat → ℚ) (cb : Bool),
        hash_files fsys sig clock cb [] = .ok ([], [])) ∧
    (∀ (fsys : HFsys) (clock : Nat → ℚ) (cb : Bool) (sig : Nat → Bool),
        (∀ k, sig k = false) →
        ∀ paths : List String, ∃ rs ev, hash_files fsys sig clock cb paths = .ok (rs, ev)) ∧
    (∀ (fsys : HFsys) (sig : Nat → Bool) (clock : Nat → ℚ) (cb : Bool) (paths : List String)
        (rs : List FileHash) (ev : List HEvent),
        hash_files fsys sig clock cb paths = .ok (rs, ev) →
        rs.length = paths.length ∧
        ∀ r ∈ rs, (r.hash.isSome ∧ r.error = none) ∨ (r.hash = none ∧ r.error.isSome)) := by
  refine ⟨fun fsys sig clock cb => rfl, ?_, ?_⟩
  · intro fsys clock cb sig hsig paths
    exact hashBatches_ok_of_sigOff fsys sig clock cb paths.length hsig (listChunks paths) 0 0 [] []
  · intro fsys sig clock cb paths rs ev h
    have hrs : rs = paths.map (hashOne fsys) := by
      have h2 := hashBatches_ok_results fsys sig clock cb paths.length
        (listChunks paths) 0 0 [] [] rs ev h
      simpa [listChunks_flatten] using h2
    subst hrs
    constructor
    · exact List.length_map _ _
    · intro r hr
      obtain ⟨p, _, rfl⟩ := List.mem_map.mp hr
      cases hc : compute_file_hash fsys p with
      | ok v => left; simp [hashOne, hc]
      | error e => right; simp [hashOne, hc]

/-- Witness for C3: a one-path call on a file system where opening fails
still returns exactly one result. -/
theorem hash_files_one_result_per_path_w :
    ([⟨"x", none, some "No such file or directory (os error 2)"⟩] :
        List FileHash).length = (["x"] : List String).length :=
  (hash_files_one_result_per_path.2.2 (fun _ => none) sigOff clockZ false ["x"]
    [⟨"x", none, some "No such file or directory (os error 2)"⟩]
    [.check] rfl).1

/-- C10: `hash_files` preserves input order exactly: on every successful call
the i-th result's `path` field is the i-th input path (the batched parallel map
is order-preserving). -/
theorem hash_files_preserves_order (fsys : HFsys) (sig : Nat → Bool) (clock : Nat → ℚ)
    (cb : Bool) (paths : List String) (rs : List FileHash) (ev : List HEvent)
    (h : hash_files fsys sig clock cb paths = .ok (rs, ev)) :
    rs.map (fun r => r.path) = paths ∧
    ∀ (i : Nat) (h1 : i < rs.length) (h2 : i < paths.length),
      (rs.get ⟨i, h1⟩).path = paths.get ⟨i, h2⟩ := by
  have hrs : rs = paths.map (hashOne fsys) := by
    have h2 := hashBatches_ok_results fsys sig clock cb paths.length
      (listChunks paths) 0 0 [] [] rs ev h
    simpa [listChunks_flatten] using h2
  have hpath : ∀ p, (hashOne fsys p).path = p := by
    intro p
    cases hc : compute_file_hash fsys p <;> simp [hashOne, hc]
  subst hrs
  constructor
  · rw [List.map_map]
    have : ((fun r : FileHash => r.path) ∘ hashOne fsys) = id := by
      funext p; exact hpath p
    rw [this, List.map_id]
  · intro i h1 h2
    simp only [List.get_eq_getElem, List.getElem_map]
    exact hpath _

/-- Witness for C10: one failing path, result path equals input path. -/
theorem hash_files_preserves_order_w :
    ([⟨"x", none, some "No such file or directory (os error 2)"⟩] :
        List FileHash).map (fun r => r.path) = ["x"] :=
  (hash_files_preserves_order (fun _ => none) sigOff clockZ false ["x"]
    [⟨"x", none, some "No such file or directory (os error 2)"⟩]
    [.check] rfl).1

/-! ## Lemmas about the walker -/

theorem walkFold_none (follow : Bool)
    (w : Nat → List String → Nat → List Nat → Option (List WalkEntry × List Nat))
    (path : List String) (depth : Nat) :
    ∀ l : List DEntry, l.foldl (walkStep follow w path depth) none = none := by
  intro l
  induction l with
  | nil => rfl
  | cons e rest ih => rw [List.foldl_cons]; exact ih

theorem visOk_length_le (fs : DirFS) (vis : List Nat) (h : VisOk fs vis) :
    vis.length ≤ fs.numDirs := by
  have hsub : vis ⊆ List.range fs.numDirs := fun v hv => List.mem_range.mpr (h.2 v hv)
  simpa using (h.1.subperm hsub).length_le

theorem walkFold_vis (fs : DirFS) (follow : Bool)
    (w : Nat → List String → Nat → List Nat → Option (List WalkEntry × List Nat))
    (hw : ∀ t p d v out v', w t p d v = some (out, v') → VisOk fs v → VisOk fs v' ∧ v ⊆ v')
    (path : List String) (depth : Nat) :
    ∀ l : List DEntry,
      (∀ name target isLink, DEntry.dir name target isLink ∈ l → target < fs.numDirs) →
      ∀ (out : List WalkEntry) (vis : List Nat) (out' : List WalkEntry) (vis' : List Nat),
        VisOk fs vis →
        l.foldl (walkStep follow w path depth) (some (out, vis)) = some (out', vis') →
        VisOk fs vis' ∧ vis ⊆ vis' := by
  intro l
  induction l with
  | nil =>
      intro _ out vis out' vis' hv h
      simp only [List.foldl_nil, Option.some.injEq, Prod.mk.injEq] at h
      exact ⟨h.2 ▸ hv, h.2 ▸ List.Subset.refl _⟩
  | cons e rest ih =>
      intro hl out vis out' vis' hv h
      have hlr : ∀ name target isLink, DEntry.dir name target isLink ∈ rest →
          target < fs.numDirs :=
        fun nm t il hm => hl nm t il (List.mem_cons_of_mem _ hm)
      rw [List.foldl_cons] at h
      cases e with
      | file name size modified =>
          simp only [walkStep] at h
          exact ih hlr _ _ _ _ hv h
      | dir name target isLink =>
          have ht : target < fs.numDirs := hl name target isLink (List.mem_cons_self _ _)
          simp only [walkStep] at h
          split_ifs at h with h1 h2 h3 hf
          · exact ih hlr _ _ _ _ hv h
          · exact ih hlr _ _ _ _ hv h
          · exact ih hlr _ _ _ _ hv h
          · cases hww : w target (path ++ [name]) (depth + 1) (target :: vis) with
            | none =>
                simp only [hww] at h
                rw [walkFold_none] at h
                cases h
            | some r =>
                obtain ⟨sub, vis2⟩ := r
                simp only [hww] at h
                have hnm : target ∉ vis := fun hmem => h3 ⟨hf, hmem⟩
                have hvin : VisOk fs (target :: vis) :=
                  ⟨List.nodup_cons.mpr ⟨hnm, hv.1⟩, fun v hvmem => by
                    rcases List.mem_cons.mp hvmem with hv1 | hv2
                    · exact hv1 ▸ ht
                    · exact hv.2 v hv2⟩
                have hstep := hw target (path ++ [name]) (depth + 1) _ sub vis2 hww hvin
                have hrest := ih hlr _ _ _ _ hstep.1 h
                exact ⟨hrest.1,
                  List.Subset.trans (List.Subset.trans (List.subset_cons_self _ _) hstep.2)
                    hrest.2⟩
          · cases hww : w target (path ++ [name]) (depth + 1) vis with
            | none =>
                simp only [hww] at h
                rw [walkFold_none] at h
                cases h
            | some r =>
                obtain ⟨sub, vis2⟩ := r
                simp only [hww] at h
                have hstep := hw target (path ++ [name]) (depth + 1) _ sub vis2 hww hv
                have hrest := ih hlr _ _ _ _ hstep.1 h
                exact ⟨hrest.1, List.Subset.trans hstep.2 hrest.2⟩

theorem walkDir_visOk (fs : DirFS) (follow : Bool) (hwf : fs.Wf) :
    ∀ (fuel dirId : Nat) (path : List String) (depth : Nat) (vis : List Nat)
      (out : List WalkEntry) (vis' : List Nat),
      walkDir fs follow fuel dirId path depth vis = some (out, vis') →
      VisOk fs vis → VisOk fs vis' ∧ vis ⊆ vis' := by
  intro fuel
  induction fuel with
  | zero => intro dirId path depth vis out vis' h; cases h
  | succ n ih =>
      intro dirId path depth vis out vis' h hv
      simp only [walkDir] at h
      exact walkFold_vis fs follow (walkDir fs follow n)
        (fun t p d v o v2 hww hvv => ih t p d v o v2 hww hvv) path depth
        (fs.entries dirId) (fun nm t il hm => hwf dirId nm t il hm) [] vis out vis' hv h

theorem walkFold_isSome (fs : DirFS) (m : Nat)
    (w : Nat → List String → Nat → List Nat → Option (List WalkEntry × List Nat))
    (hwv : ∀ t p d v out v', w t p d v = some (out, v') → VisOk fs v → VisOk fs v' ∧ v ⊆ v')
    (hwt : ∀ t p d v, VisOk fs v → fs.numDirs < m + v.length → (w t p d v).isSome = true)
    (follow : Bool) (hfol : follow = true) (path : List String) (depth : Nat) :
    ∀ l : List DEntry,
      (∀ name target isLink, DEntry.dir name target isLink ∈ l → target < fs.numDirs) →
      ∀ (out : List WalkEntry) (vis : List Nat),
        VisOk fs vis → fs.numDirs < (m + 1) + vis.length →
        (l.foldl (walkStep follow w path depth) (some (out, vis))).isSome = true := by
  intro l
  induction l with
  | nil => intro _ out vis hv hlt; simp
  | cons e rest ih =>
      intro hl out vis hv hlt
      have hlr := fun nm t il hm => hl nm t il (List.mem_cons_of_mem _ hm)
      rw [List.foldl_cons]
      cases e with
      | file name size modified =>
          simp only [walkStep]
          exact ih hlr _ _ hv hlt
      | dir name target isLink =>
          have ht : target < fs.numDirs := hl name target isLink (List.mem_cons_self _ _)
          simp only [walkStep]
          split_ifs with h1 h2 h3
          · exact ih hlr _ _ hv hlt
          · exact ih hlr _ _ hv hlt
          · exact ih hlr _ _ hv hlt
          · have hnm : target ∉ vis := fun hmem => h3 ⟨hfol, hmem⟩
            have hvin : VisOk fs (target :: vis) :=
              ⟨List.nodup_cons.mpr ⟨hnm, hv.1⟩, fun v hvmem => by
                rcases List.mem_cons.mp hvmem with hv1 | hv2
                · exact hv1 ▸ ht
                · exact hv.2 v hv2⟩
            have hsome := hwt target (path ++ [name]) (depth + 1) (target :: vis) hvin
              (by rw [List.length_cons]; omega)
            obtain ⟨⟨sub, vis2⟩, hww⟩ := Option.isSome_iff_exists.mp hsome
            simp only [hww]
            have hstep := hwv target (path ++ [name]) (depth + 1) _ sub vis2 hww hvin
            refine ih hlr _ _ hstep.1 ?_
            have hle : vis.length + 1 ≤ vis2.length := by
              have hsp := (List.nodup_cons.mpr ⟨hnm, hv.1⟩).subperm hstep.2
              simpa using hsp.length_le
            omega

theorem walkDir_isSome (fs : DirFS) (hwf : fs.Wf) (follow : Bool) (hfol : follow = true) :
    ∀ (fuel dirId : Nat) (path : List String) (depth : Nat) (vis : List Nat),
      VisOk fs vis → fs.numDirs < fuel + vis.length →
      (walkDir fs follow fuel dirId path depth vis).isSome = true := by
  intro fuel
  induction fuel with
  | zero =>
      intro dirId path depth vis hv hlt
      have hle := visOk_length_le fs vis hv
      exact absurd hlt (by omega)
  | succ n ih =>
      intro dirId path depth vis hv hlt
      simp only [walkDir]
      exact walkFold_isSome fs n (walkDir fs follow n)
        (fun t p d v o v2 hww hvv => walkDir_visOk fs follow hwf n t p d v o v2 hww hvv)
        (fun t p d v hvv hl2 => ih t p d v hvv hl2) follow hfol path depth (fs.entries dirId)
        (fun nm t il hm => hwf dirId nm t il hm) [] vis hv hlt

theorem walkFold_paths (fs : DirFS) (follow : Bool)
    (w : Nat → List String → Nat → List Nat → Option (List WalkEntry × List Nat))
    (hw : ∀ t p d v out v', w t p d v = some (out, v') → ∀ e ∈ out, GoodFileEntry p e)
    (path : List String) (depth : Nat) :
    ∀ l : List DEntry,
      ∀ (out : List WalkEntry) (vis : List Nat) (out' : List WalkEntry) (vis' : List Nat),
        (∀ e ∈ out, GoodFileEntry path e) →
        l.foldl (walkStep follow w path depth) (some (out, vis)) = some (out', vis') →
        ∀ e ∈ out', GoodFileEntry path e := by
  intro l
  induction l with
  | nil =>
      intro out vis out' vis' hout h
      simp only [List.foldl_nil, Option.some.injEq, Prod.mk.injEq] at h
      exact h.1 ▸ hout
  | cons e rest ih =>
      intro out vis out' vis' hout h
      rw [List.foldl_cons] at h
      cases e with
      | file name size modified =>
          simp only [walkStep] at h
          refine ih _ _ _ _ ?_ h
          intro e2 he2
          rcases List.mem_append.mp he2 with he3 | he4
          · exact hout e2 he3
          · rw [List.mem_singleton] at he4
            subst he4
            intro _
            exact ⟨[name], List.cons_ne_nil _ _, rfl, by intro c hc; simp at hc⟩
      | dir name target isLink =>
          simp only [walkStep] at h
          split_ifs at h with h1 h2 h3 hf
          · refine ih _ _ _ _ ?_ h
            intro e2 he2
            rcases List.mem_append.mp he2 with he3 | he4
            · exact hout e2 he3
            · rw [List.mem_singleton] at he4
              subst he4
              intro hk
              obtain ⟨s, m, hsm⟩ := hk
              cases hsm
          · exact ih _ _ _ _ hout h
          · exact ih _ _ _ _ hout h
          · have hdot : startsWithDot name = false := by
              rcases Bool.eq_false_or_eq_true (startsWithDot name) with hb | hb
              · exact absurd ⟨hb, Nat.succ_pos depth⟩ h2
              · exact hb
            cases hww : w target (path ++ [name]) (depth + 1) (target :: vis) with
            | none =>
                simp only [hww] at h
                rw [walkFold_none] at h
                cases h
            | some r =>
                obtain ⟨sub, vis2⟩ := r
                simp only [hww] at h
                refine ih _ _ _ _ ?_ h
                intro e2 he2
                rcases List.mem_append.mp he2 with he3 | he4
                · exact hout e2 he3
                · rcases List.mem_cons.mp he4 with he5 | he6
                  · subst he5
                    intro hk
                    obtain ⟨s, m, hsm⟩ := hk
                    cases hsm
                  · intro hk
                    obtain ⟨suf, hne, hpath, hcomp⟩ := hw _ _ _ _ _ _ hww e2 he6 hk
                    refine ⟨name :: suf, List.cons_ne_nil _ _, ?_, ?_⟩
                    · rw [hpath, List.append_assoc]
                      rfl
                    · rw [List.dropLast_cons_of_ne_nil hne]
                      intro c hc
                      rcases List.mem_cons.mp hc with hc1 | hc2
                      · exact hc1 ▸ hdot
                      · exact hcomp c hc2
          · have hdot : startsWithDot name = false := by
              rcases Bool.eq_false_or_eq_true (startsWithDot name) with hb | hb
              · exact absurd ⟨hb, Nat.succ_pos depth⟩ h2
              · exact hb
            cases hww : w target (path ++ [name]) (depth + 1) vis with
            | none =>
                simp only [hww] at h
                rw [walkFold_none] at h
                cases h
            | some r =>
                obtain ⟨sub, vis2⟩ := r
                simp only [hww] at h
                refine ih _ _ _ _ ?_ h
                intro e2 he2
                rcases List.mem_append.mp he2 with he3 | he4
                · exact hout e2 he3
                · rcases List.mem_cons.mp he4 with he5 | he6
                  · subst he5
                    intro hk
                    obtain ⟨s, m, hsm⟩ := hk
                    cases hsm
                  · intro hk
                    obtain ⟨suf, hne, hpath, hcomp⟩ := hw _ _ _ _ _ _ hww e2 he6 hk
                    refine ⟨name :: suf, List.cons_ne_nil _ _, ?_, ?_⟩
                    · rw [hpath, List.append_assoc]
                      rfl
                    · rw [List.dropLast_cons_of_ne_nil hne]
                      intro c hc
                      rcases List.mem_cons.mp hc with hc1 | hc2
                      · exact hc1 ▸ hdot
                      · exact hcomp c hc2

theorem walkDir_paths (fs : DirFS) (follow : Bool) :
    ∀ (fuel dirId : Nat) (path : List String) (depth : Nat) (vis : List Nat)
      (out : List WalkEntry) (vis' : List Nat),
      walkDir fs follow fuel dirId path depth vis = some (out, vis') →
      ∀ e ∈ out, GoodFileEntry path e := by
  intro fuel
  induction fuel with
  | zero => intro dirId path depth vis out vis' h; cases h
  | succ n ih =>
      intro dirId path depth vis out vis' h
      simp only [walkDir] at h
      exact walkFold_paths fs follow (walkDir fs follow n)
        (fun t p d v o v2 hww => ih t p d v o v2 hww) path depth (fs.entries dirId)
        [] vis out vis' (fun e he => absurd he (List.not_mem_nil e)) h

theorem allCrossingEvents_succ (cb : Bool) (clock : Nat → ℚ) (k : Nat) :
    allCrossingEvents cb clock (k + 1) =
      allCrossingEvents cb clock k ++ crossingEvents cb clock (100 * (k + 1)) := by
  simp [allCrossingEvents, List.range_succ]

theorem countChecks_crossingEvents (cb : Bool) (clock : Nat → ℚ) (c : Nat) :
    countChecks (crossingEvents cb clock c) = 1 := by
  cases cb <;> rfl

theorem countChecks_allCrossingEvents (cb : Bool) (clock : Nat → ℚ) :
    ∀ k, countChecks (allCrossingEvents cb clock k) = k := by
  intro k
  induction k with
  | zero => rfl
  | succ n ihn =>
      rw [allCrossingEvents_succ]
      simp only [countChecks, List.countP_append] at ihn ⊢
      rw [ihn]
      have := countChecks_crossingEvents cb clock (100 * (n + 1))
      simp only [countChecks] at this
      omega

theorem discoverLoop_ok (sig : Nat → Bool) (cb : Bool) (clock : Nat → ℚ) (exts : List String) :
    ∀ (l : List WalkEntry) (st st' : LoopState),
      discoverLoop sig cb clock exts l st = .ok st' →
      LoopInv cb clock st →
      st'.acc = st.acc ++ l ∧ st'.found = st.found + matchedCount exts l ∧
        LoopInv cb clock st' := by
  intro l
  induction l with
  | nil =>
      intro st st' h hinv
      simp only [discoverLoop, Except.ok.injEq] at h
      subst h
      exact ⟨by simp, by simp [matchedCount], hinv⟩
  | cons e rest ih =>
      intro st st' h hinv
      obtain ⟨hlast, hchecks, hevents⟩ := hinv
      cases hk : e.kind with
      | fileK s m =>
          simp only [discoverLoop, hk] at h
          by_cases hm : extMatch exts (entryName e) = true
          · rw [if_pos hm] at h
            by_cases hcross : 100 ≤ st.found + 1 - st.last
            · rw [if_pos hcross] at h
              by_cases hsig : sig st.checks = true
              · rw [if_pos hsig] at h; cases h
              · rw [if_neg hsig] at h
                have hdvd : (st.found + 1) % 100 = 0 := by omega
                have hinv2 : LoopInv cb clock
                    { acc := st.acc ++ [e], found := st.found + 1, last := st.found + 1,
                      checks := st.checks + 1,
                      events := st.events ++ [.check] ++
                        (if cb then
                          [.progress (st.found + 1) (clock (st.found + 1))
                            (computeRate (st.found + 1) (clock (st.found + 1)))]
                         else []) } := by
                  refine ⟨by simp; omega, by simp; omega, ?_⟩
                  simp only
                  have hk1 : (st.found + 1) / 100 = st.found / 100 + 1 := by omega
                  rw [hk1, allCrossingEvents_succ, hevents]
                  have hk2 : 100 * (st.found / 100 + 1) = st.found + 1 := by omega
                  rw [hk2, crossingEvents]
                  simp
                have hres := ih _ _ h hinv2
                refine ⟨?_, ?_, hres.2.2⟩
                · rw [hres.1]; simp
                · rw [hres.2.1]
                  simp only [matchedCount, List.countP_cons, hk, hm]
                  simp [matchedCount]
                  omega
            · rw [if_neg hcross] at h
              have hinv2 : LoopInv cb clock
                  { st with acc := st.acc ++ [e], found := st.found + 1 } := by
                refine ⟨by simp; omega, by simp; omega, ?_⟩
                simp only
                have hk1 : (st.found + 1) / 100 = st.found / 100 := by omega
                rw [hk1, hevents]
              have hres := ih _ _ h hinv2
              refine ⟨?_, ?_, hres.2.2⟩
              · rw [hres.1]; simp
              · rw [hres.2.1]
                simp only [matchedCount, List.countP_cons, hk, hm]
                simp [matchedCount]
                omega
          · rw [if_neg hm] at h
            have hinv2 : LoopInv cb clock { st with acc := st.acc ++ [e] } :=
              ⟨hlast, hchecks, hevents⟩
            have hres := ih _ _ h hinv2
            refine ⟨?_, ?_, hres.2.2⟩
            · rw [hres.1]; simp
            · rw [hres.2.1]
              simp only [matchedCount, List.countP_cons, hk]
              simp [matchedCount, hm]
      | dirK =>
          simp only [discoverLoop, hk] at h
          have hinv2 : LoopInv cb clock { st with acc := st.acc ++ [e] } :=
            ⟨hlast, hchecks, hevents⟩
          have hres := ih _ _ h hinv2
          refine ⟨?_, ?_, hres.2.2⟩
          · rw [hres.1]; simp
          · rw [hres.2.1]
            simp [matchedCount, List.countP_cons, hk]
      | linkK =>
          simp only [discoverLoop, hk] at h
          have hinv2 : LoopInv cb clock { st with acc := st.acc ++ [e] } :=
            ⟨hlast, hchecks, hevents⟩
          have hres := ih _ _ h hinv2
          refine ⟨?_, ?_, hres.2.2⟩
          · rw [hres.1]; simp
          · rw [hres.2.1]
            simp [matchedCount, List.countP_cons, hk]

theorem discoverLoop_ok_of_sigOff (sig : Nat → Bool) (cb : Bool) (clock : Nat → ℚ)
    (exts : List String) (hsig : ∀ k, sig k = false) :
    ∀ (l : List WalkEntry) (st : LoopState),
      ∃ st', discoverLoop sig cb clock exts l st = .ok st' := by
  intro l
  induction l with
  | nil => intro st; exact ⟨st, rfl⟩
  | cons e rest ih =>
      intro st
      cases hk : e.kind with
      | fileK s m =>
          simp only [discoverLoop, hk]
          by_cases hm : extMatch exts (entryName e) = true
          · rw [if_pos hm]
            by_cases hcross : 100 ≤ st.found + 1 - st.last
            · rw [if_pos hcross, hsig st.checks]
              simp only [Bool.false_eq_true, if_false]
              exact ih _
            · rw [if_neg hcross]; exact ih _
          · rw [if_neg hm]; exact ih _
      | dirK => simp only [discoverLoop, hk]; exact ih _
      | linkK => simp only [discoverLoop, hk]; exact ih _

theorem allCrossingEvents_rate (cb : Bool) (clock : Nat → ℚ) :
    ∀ k, ∀ e ∈ allCrossingEvents cb clock k, WEventRate e := by
  intro k
  induction k with
  | zero => intro e he; cases he
  | succ n ihn =>
      intro e he
      rw [allCrossingEvents_succ] at he
      rcases List.mem_append.mp he with h1 | h2
      · exact ihn e h1
      · simp only [crossingEvents] at h2
        rcases List.mem_cons.mp h2 with h3 | h4
        · subst h3; intro c el r hpe; cases hpe
        · by_cases hcb : cb = true
          · rw [if_pos hcb, List.mem_singleton] at h4
            subst h4
            intro c el r hpe
            cases hpe
            rfl
          · rw [if_neg hcb] at h4; cases h4

theorem discoverFinish_events (cb : Bool) (clock : Nat → ℚ) (st : LoopState)
    (hinv : LoopInv cb clock st) :
    (discoverFinish cb clock st).events =
      allCrossingEvents cb clock (st.found / 100) ++
        (if cb = true ∧ st.found % 100 ≠ 0 then
          [.progress st.found (clock st.found) (computeRate st.found (clock st.found))]
         else []) ∧
    (discoverFinish cb clock st).acc = st.acc ∧
    (discoverFinish cb clock st).found = st.found := by
  obtain ⟨hlast, _, hevents⟩ := hinv
  simp only [discoverFinish]
  by_cases hc : cb = true ∧ st.found ≠ st.last
  · rw [if_pos hc]
    have hmod : st.found % 100 ≠ 0 := by omega
    rw [if_pos ⟨hc.1, hmod⟩]
    exact ⟨by simp only []; rw [hevents], rfl, rfl⟩
  · rw [if_neg hc]
    have hiff : ¬(cb = true ∧ st.found % 100 ≠ 0) := by
      intro hcon
      exact hc ⟨hcon.1, by omega⟩
    rw [if_neg hiff]
    exact ⟨by rw [hevents]; simp, rfl, rfl⟩

theorem processEntries_mem (exts : List String) (es : List WalkEntry) (f : DiscoveredFile)
    (h : f ∈ processEntries exts es) :
    ∃ e ∈ es, (∃ s m, e.kind = WKind.fileK s m) ∧ f.path = e.path := by
  obtain ⟨e, he, heq⟩ := List.mem_filterMap.mp h
  cases hk : e.kind with
  | fileK s m =>
      simp only [hk] at heq
      by_cases hm : extMatch exts (entryName e) = true
      · rw [if_pos hm] at heq
        cases heq
        exact ⟨e, he, ⟨s, m, hk⟩, rfl⟩
      · rw [if_neg hm] at heq; cases heq
  | dirK => simp only [hk] at heq; cases heq
  | linkK => simp only [hk] at heq; cases heq

/-! ## Claims about the walker -/

theorem cycleFS_wf : cycleFS.Wf := by
  intro d nm t il hm
  match d with
  | 0 =>
      rcases List.mem_cons.mp hm with h1 | h2
      · cases h1
      · rw [List.mem_singleton] at h2
        cases h2
        decide
  | n + 1 => cases hm

/-- C4: with `follow_symlinks = true` the walk terminates on any directory
graph, symlink cycles included: before a directory is descended into, its
canonical id is checked against the visited set and inserted in the same
(single-threaded, hence atomic) step, a directory whose canonical id is
already present is skipped, so fuel `numDirs + 1` never runs out. On the
concrete cycle `A ∋ loop → A` the walk returns the one file of `A` exactly
once and the symlinked directory is skipped, not descended. -/
theorem discover_symlink_cycle_safe :
    (∀ fs : DirFS, fs.Wf →
      ∀ (fuel dirId : Nat) (path : List String) (depth : Nat) (vis : List Nat),
        VisOk fs vis → fs.numDirs < fuel + vis.length →
        (walkDir fs true fuel dirId path depth vis).isSome = true) ∧
    discover_videos cycleFS (.dirAt 0) "A" ["mkv"] true sigOff false clockZ =
      .ok ([⟨["f.mkv"], 10, 0⟩], []) := by
  constructor
  · intro fs hwf fuel dirId path depth vis hv hlt
    exact walkDir_isSome fs hwf true rfl fuel dirId path depth vis hv hlt
  · rfl

/-- Witness for C4: the termination bound applied to the concrete cycle. -/
theorem discover_symlink_cycle_safe_w :
    (walkDir cycleFS true 2 0 [] 0 [0]).isSome = true :=
  discover_symlink_cycle_safe.1 cycleFS cycleFS_wf 2 0 [] 0 [0]
    ⟨by decide, by decide⟩ (by decide)

/-- C5: files under a dot-prefixed subdirectory at depth > 0 never appear in
the results of `discover_videos`: every returned file's path has no
dot-prefixed directory component (the file's own name may start with a dot).
The traversal root itself is never pruned by this rule: a root whose name
starts with a dot is still walked, as the concrete run with root `.hidden`
shows. -/
theorem discover_prunes_dot_dirs :
    (∀ (fs : DirFS) (rootStat : RootStat) (rootName : String) (exts : List String)
        (follow : Bool) (sig : Nat → Bool) (cb : Bool) (clock : Nat → ℚ)
        (files : List DiscoveredFile) (evts : List WEvent),
        discover_videos fs rootStat rootName exts follow sig cb clock = .ok (files, evts) →
        ∀ f ∈ files, ∀ c ∈ f.path.dropLast, startsWithDot c = false) ∧
    discover_videos dotRootFS (.dirAt 0) ".hidden" ["mkv"] false sigOff false clockZ =
      .ok ([⟨["a.mkv"], 5, 0⟩], []) := by
  constructor
  · intro fs rootStat rootName exts follow sig cb clock files evts h f hf c hc
    cases rootStat with
    | missing => cases h
    | notDir => cases h
    | dirAt root =>
        simp only [discover_videos] at h
        by_cases hroot : startsWithDot rootName = true ∧ 0 < (0 : Nat)
        · rw [if_pos hroot] at h
          cases h
          cases hf
        · rw [if_neg hroot] at h
          cases hw : walkDir fs follow (fs.numDirs + 1) root [] 0
              (if follow then [root] else []) with
          | none => simp only [hw] at h; cases h
          | some r =>
              obtain ⟨sub, vis'⟩ := r
              simp only [hw] at h
              cases hl : discoverLoop sig cb clock (lowerExts exts)
                  (⟨[], 0, WKind.dirK⟩ :: sub) initLoopState with
              | error msg => simp only [hl] at h; cases h
              | ok st =>
                  simp only [hl] at h
                  cases h
                  have hinv0 : LoopInv cb clock initLoopState := ⟨rfl, rfl, rfl⟩
                  have hloop := discoverLoop_ok sig cb clock (lowerExts exts) _ _ _ hl hinv0
                  have hfin := discoverFinish_events cb clock st hloop.2.2
                  rw [hfin.2.1] at hf
                  have hacc : st.acc = ⟨[], 0, WKind.dirK⟩ :: sub := by
                    have := hloop.1
                    simpa [initLoopState] using this
                  rw [hacc] at hf
                  obtain ⟨e, he, hkind, hpath⟩ := processEntries_mem _ _ _ hf
                  rcases List.mem_cons.mp he with he1 | he2
                  · obtain ⟨s, m, hsm⟩ := hkind
                    rw [he1] at hsm
                    cases hsm
                  · have hgood := walkDir_paths fs follow _ _ _ _ _ _ _ hw e he2 hkind
                    obtain ⟨suf, _, hsuf, hcomp⟩ := hgood
                    rw [List.nil_append] at hsuf
                    rw [hpath, hsuf] at hc
                    exact hcomp c hc
  · rfl

/-- Witness for C5: a file one directory deep; its single directory component
does not start with a dot. -/
theorem discover_prunes_dot_dirs_w : startsWithDot "sub" = false :=
  discover_prunes_dot_dirs.1 subFS (.dirAt 0) "root" ["mkv"] false sigOff false clockZ
    [⟨["sub", "b.mkv"], 3, 0⟩] [] rfl ⟨["sub", "b.mkv"], 3, 0⟩ (List.mem_singleton.mpr rfl)
    "sub" (List.mem_singleton.mpr rfl)

/-- C6: extension matching is case-insensitive — the lowercased path extension
is compared against the lowercased extension set — and a file without an
extension never matches; on a directory holding `video.mkv`, `video.mp4` and
`note.txt` (10 bytes each), discovery with extensions `mkv, mp4` and
`follow_symlinks = false` returns exactly the two video files, each of size
10. -/
theorem discover_extension_matching :
    (∀ (exts : List String) (name : String),
        pathExtension name = none → extMatch exts name = false) ∧
    (∀ (exts : List String) (name ext : String), pathExtension name = some ext →
        (extMatch (lowerExts exts) name = true ↔
          (lowerExts exts).contains (lowerString ext) = true)) ∧
    extMatch (lowerExts ["MKV"]) "video.mkv" = true ∧
    extMatch (lowerExts ["mkv"]) "VIDEO.MKV" = true ∧
    extMatch (lowerExts ["mkv"]) "video" = false ∧
    discover_videos videoFS (.dirAt 0) "root" ["mkv", "mp4"] false sigOff false clockZ =
      .ok ([⟨["video.mkv"], 10, 1⟩, ⟨["video.mp4"], 10, 2⟩], []) := by
  refine ⟨?_, ?_, rfl, rfl, rfl, rfl⟩
  · intro exts name hn
    simp [extMatch, hn]
  · intro exts name ext hn
    simp [extMatch, hn]

/-- Witness for C6: a name with no extension never matches. -/
theorem discover_extension_matching_w : extMatch ["mkv"] "noext" = false :=
  discover_extension_matching.1 ["mkv"] "noext" rfl

/-- C7: `discover_videos` fails with `notFound` exactly when the root does not
exist, and with `notADirectory` exactly when the root exists but is not a
directory; the two setup errors are distinguishable; and on an existing root
directory (with symlink following on and no pending signal) the call returns
a list. -/
theorem discover_root_errors :
    (∀ (fs : DirFS) (rootStat : RootStat) (rootName : String) (exts : List String)
        (follow : Bool) (sig : Nat → Bool) (cb : Bool) (clock : Nat → ℚ),
      ((∃ m, discover_videos fs rootStat rootName exts follow sig cb clock =
          .error (.notFound m)) ↔ rootStat = .missing) ∧
      ((∃ m, discover_videos fs rootStat rootName exts follow sig cb clock =
          .error (.notADirectory m)) ↔ rootStat = .notDir)) ∧
    (∀ m m', DiscoverError.notFound m ≠ DiscoverError.notADirectory m') ∧
    (∀ (fs : DirFS) (root : Nat) (rootName : String) (exts : List String)
        (sig : Nat → Bool) (cb : Bool) (clock : Nat → ℚ),
        fs.Wf → root < fs.numDirs → (∀ k, sig k = false) →
        ∃ res, discover_videos fs (.dirAt root) rootName exts true sig cb clock = .ok res) := by
  refine ⟨?_, ?_, ?_⟩
  · intro fs rootStat rootName exts follow sig cb clock
    cases rootStat with
    | missing =>
        refine ⟨⟨fun _ => rfl, fun _ => ⟨"Directory not found: " ++ rootName, rfl⟩⟩, ⟨?_, ?_⟩⟩
        · rintro ⟨m, hm⟩
          simp only [discover_videos] at hm
          cases hm
        · intro hcon; cases hcon
    | notDir =>
        refine ⟨⟨?_, ?_⟩, ⟨fun _ => rfl, fun _ => ⟨"Not a directory: " ++ rootName, rfl⟩⟩⟩
        · rintro ⟨m, hm⟩
          simp only [discover_videos] at hm
          cases hm
        · intro hcon; cases hcon
    | dirAt root =>
        have hnever : ∀ err : DiscoverError,
            (∀ m, err ≠ .notFound m) → (∀ m, err ≠ .notADirectory m) → True := fun _ _ _ =>
          trivial
        constructor
        · constructor
          · rintro ⟨m, hm⟩
            exfalso
            simp only [discover_videos] at hm
            by_cases hroot : startsWithDot rootName = true ∧ 0 < (0 : Nat)
            · rw [if_pos hroot] at hm; cases hm
            · rw [if_neg hroot] at hm
              cases hw : walkDir fs follow (fs.numDirs + 1) root [] 0
                  (if follow then [root] else []) with
              | none => simp only [hw] at hm; cases hm
              | some r =>
                  obtain ⟨sub, vis'⟩ := r
                  simp only [hw] at hm
                  cases hl : discoverLoop sig cb clock (lowerExts exts)
                      (⟨[], 0, WKind.dirK⟩ :: sub) initLoopState with
                  | error msg => simp only [hl] at hm; cases hm
                  | ok st => simp only [hl] at hm; cases hm
          · intro hcon; cases hcon
        · constructor
          · rintro ⟨m, hm⟩
            exfalso
            simp only [discover_videos] at hm
            by_cases hroot : startsWithDot rootName = true ∧ 0 < (0 : Nat)
            · rw [if_pos hroot] at hm; cases hm
            · rw [if_neg hroot] at hm
              cases hw : walkDir fs follow (fs.numDirs + 1) root [] 0
                  (if follow then [root] else []) with
              | none => simp only [hw] at hm; cases hm
              | some r =>
                  obtain ⟨sub, vis'⟩ := r
                  simp only [hw] at hm
                  cases hl : discoverLoop sig cb clock (lowerExts exts)
                      (⟨[], 0, WKind.dirK⟩ :: sub) initLoopState with
                  | error msg => simp only [hl] at hm; cases hm
                  | ok st => simp only [hl] at hm; cases hm
          · intro hcon; cases hcon
  · intro m m' hcon; cases hcon
  · intro fs root rootName exts sig cb clock hwf hroot hsig
    simp only [discover_videos]
    by_cases hdot : startsWithDot rootName = true ∧ 0 < (0 : Nat)
    · rw [if_pos hdot]; exact ⟨_, rfl⟩
    · rw [if_neg hdot]
      have hvok : VisOk fs [root] :=
        ⟨List.nodup_singleton root, fun v hv => by rw [List.mem_singleton] at hv; exact hv ▸ hroot⟩
      have hsome := walkDir_isSome fs hwf true rfl (fs.numDirs + 1) root [] 0 [root] hvok
        (by rw [List.length_cons]; omega)
      rw [if_pos trivial]
      obtain ⟨⟨sub, vis'⟩, hw⟩ := Option.isSome_iff_exists.mp hsome
      obtain ⟨st, hl⟩ := discoverLoop_ok_of_sigOff sig cb clock (lowerExts exts) hsig
        (⟨[], 0, WKind.dirK⟩ :: sub) initLoopState
      simp only [hw, hl]
      exact ⟨_, rfl⟩

/-- Witness for C7: a successful discovery on an existing root directory. -/
theorem discover_root_errors_w :
    (discover_videos dotRootFS (.dirAt 0) "r2" ["mkv"] true sigOff false clockZ).isOk = true := by
  obtain ⟨res, hres⟩ := discover_root_errors.2.2 dotRootFS 0 "r2" ["mkv"] sigOff false clockZ
    (by intro d nm t il hm
        match d with
        | 0 =>
            have hm' : DEntry.dir nm t il ∈ [DEntry.file "a.mkv" 5 0] := hm
            rw [List.mem_singleton] at hm'
            cases hm'
        | n + 1 =>
            have hm' : DEntry.dir nm t il ∈ ([] : List DEntry) := hm
            cases hm')
    (by decide) (fun _ => rfl)
  rw [hres]
  rfl

/-- C8 counterexample: the claim requires a signal check (propagating a
pending signal as an Interrupted outcome) at the once-more-after-completion
report, but the source's final report block performs no signal check. With a
permanently pending signal and one matched file (so the final count 1 was
never reported at a 100-crossing), the loop plus final report completes
successfully, emits the final progress callback, and records zero signal
checks — instead of propagating Interrupted as the claim demands. -/
theorem discovery_final_report_no_check_cex :
    discoverLoop sigOn true clockZ ["mkv"] [oneMatchEntry] initLoopState =
      .ok ⟨[oneMatchEntry], 1, 0, 0, []⟩ ∧
    matchedCount ["mkv"] [oneMatchEntry] = 1 ∧
    (discoverFinish true clockZ ⟨[oneMatchEntry], 1, 0, 0, []⟩).events =
      [.progress 1 0 (computeRate 1 0)] ∧
    countChecks (discoverFinish true clockZ ⟨[oneMatchEntry], 1, 0, 0, []⟩).events = 0 := by
  exact ⟨rfl, rfl, rfl, rfl⟩

/-- C8 (amended): during discovery, whenever the matched-file count crosses a
multiple of 100 the walker checks for an external cancellation signal
(propagating as Interrupted if present) and, if a callback was supplied,
invokes it with the current count and rate; after traversal completes, if the
final count was not already reported and a callback was supplied, the
callback is invoked once more — without an additional signal check, so the
number of checks is exactly `matchedCount / 100`. -/
theorem discovery_progress_reporting (sig : Nat → Bool) (cb : Bool) (clock : Nat → ℚ)
    (exts : List String) (l : List WalkEntry) (st : LoopState)
    (h : discoverLoop sig cb clock exts l initLoopState = .ok st) :
    st.found = matchedCount exts l ∧
    (discoverFinish cb clock st).events =
      allCrossingEvents cb clock (matchedCount exts l / 100) ++
        (if cb = true ∧ matchedCount exts l % 100 ≠ 0 then
          [.progress (matchedCount exts l) (clock (matchedCount exts l))
            (computeRate (matchedCount exts l) (clock (matchedCount exts l)))]
         else []) ∧
    countChecks (discoverFinish cb clock st).events = matchedCount exts l / 100 := by
  have hinv0 : LoopInv cb clock initLoopState := ⟨rfl, rfl, rfl⟩
  have hres := discoverLoop_ok sig cb clock exts l initLoopState st h hinv0
  have hfound : st.found = matchedCount exts l := by
    simpa [initLoopState] using hres.2.1
  have hfin := discoverFinish_events cb clock st hres.2.2
  refine ⟨hfound, ?_, ?_⟩
  · rw [hfin.1, hfound]
  · rw [hfin.1, hfound]
    simp only [countChecks, List.countP_append]
    have h1 := countChecks_allCrossingEvents cb clock (matchedCount exts l / 100)
    simp only [countChecks] at h1
    rw [h1]
    by_cases hc : cb = true ∧ matchedCount exts l % 100 ≠ 0
    · rw [if_pos hc]; rfl
    · rw [if_neg hc]; rfl

set_option maxRecDepth 8000 in
/-- Witness for C8 at a run with 101 matched files: one crossing (one check)
and one final report. -/
theorem discovery_progress_reporting_w :
    countChecks (discoverFinish false clockZ
      ⟨List.replicate 101 ⟨["c.mkv"], 1, WKind.fileK 1 0⟩, 101, 100, 1,
        [.check]⟩).events = 1 := by
  have h := discovery_progress_reporting sigOff false clockZ ["mkv"]
    (List.replicate 101 ⟨["c.mkv"], 1, WKind.fileK 1 0⟩)
    ⟨List.replicate 101 ⟨["c.mkv"], 1, WKind.fileK 1 0⟩, 101, 100, 1, [.check]⟩ rfl
  rw [h.2.2]
  rfl

/-- C9: in every progress report of both the walker and the hasher, the rate
equals the guarded quotient of the reported count by the elapsed wall-clock
time, computed as `count / elapsed` only when `0 < elapsed` and as `0`
otherwise — so a zero elapsed time reports a zero rate and the division is
never performed with a zero divisor. -/
theorem progress_rate_guarded :
    (∀ count : Nat, computeRate count 0 = 0) ∧
    (∀ (count : Nat) (elapsed : ℚ), 0 < elapsed →
        computeRate count elapsed = (count : ℚ) / elapsed) ∧
    (∀ (sig : Nat → Bool) (cb : Bool) (clock : Nat → ℚ) (exts : List String)
        (l : List WalkEntry) (st : LoopState) (c : Nat) (el r : ℚ),
        discoverLoop sig cb clock exts l initLoopState = .ok st →
        WEvent.progress c el r ∈ (discoverFinish cb clock st).events →
        r = computeRate c el ∧ (el = 0 → r = 0)) ∧
    (∀ (fsys : HFsys) (sig : Nat → Bool) (clock : Nat → ℚ) (hasCb : Bool)
        (paths : List String) (rs : List FileHash) (ev : List HEvent)
        (p t : Nat) (el r : ℚ),
        hash_files fsys sig clock hasCb paths = .ok (rs, ev) →
        HEvent.progress p t el r ∈ ev →
        r = computeRate p el ∧ (el = 0 → r = 0)) := by
  refine ⟨?_, ?_, ?_, ?_⟩
  · intro count
    simp [computeRate]
  · intro count elapsed h
    rw [computeRate, if_pos h]
  · intro sig cb clock exts l st c el r h hmem
    have hinv0 : LoopInv cb clock initLoopState := ⟨rfl, rfl, rfl⟩
    have hres := discoverLoop_ok sig cb clock exts l initLoopState st h hinv0
    have hfin := discoverFinish_events cb clock st hres.2.2
    rw [hfin.1] at hmem
    have hrate : r = computeRate c el := by
      rcases List.mem_append.mp hmem with h1 | h2
      · exact allCrossingEvents_rate cb clock _ _ h1 c el r rfl
      · by_cases hc : cb = true ∧ st.found % 100 ≠ 0
        · rw [if_pos hc, List.mem_singleton] at h2
          cases h2
          rfl
        · rw [if_neg hc] at h2
          cases h2
    refine ⟨hrate, fun h0 => ?_⟩
    rw [hrate, h0]
    simp [computeRate]
  · intro fsys sig clock hasCb paths rs ev p t el r h hmem
    have hall := hashBatches_events_rate fsys sig clock hasCb paths.length
      (listChunks paths) 0 0 [] [] rs ev h (fun e he => absurd he (List.not_mem_nil e))
    have hrate : r = computeRate p el := hall _ hmem p t el r rfl
    refine ⟨hrate, fun h0 => ?_⟩
    rw [hrate, h0]
    simp [computeRate]

/-- Witness for C9: a one-file walk with a stuck-at-zero clock reports rate
zero. -/
theorem progress_rate_guarded_w :
    computeRate 1 0 = computeRate 1 0 ∧ ((0 : ℚ) = 0 → computeRate 1 0 = 0) :=
  progress_rate_guarded.2.2.1 sigOff true clockZ ["mp4"]
    [⟨["d.mp4"], 2, WKind.fileK 2 0⟩] ⟨[⟨["d.mp4"], 2, WKind.fileK 2 0⟩], 1, 0, 0, []⟩
    1 0 (computeRate 1 0) rfl (List.mem_singleton.mpr rfl)
